import Mathlib

/-!
Shallow embedding of `src/app.py` (a browser-based Azure blob container
explorer) and proofs about its core algorithms.

Python strings are modelled as `List Char` (sequences of code points).
Python's `sorted` on strings is a stable sort using string comparison,
which is lexicographic by code point; it is modelled by
`List.insertionSort (· ≤ ·)` with the lexicographic order on `List Char`
(both are stable sorts driven by the same total preorder, hence
extensionally equal).  Remote failures (`upload_blob` / `delete_blob`
raising) are modelled by explicit oracles naming the keys whose remote
call raises.
-/

/-- Python `s.split('/')` on a string modelled as a `List Char`: splits at
every slash, keeping empty pieces; the empty string yields one empty
piece. -/
def pySplitSlash : List Char → List (List Char)
  | [] => [[]]
  | c :: rest =>
    if c = '/' then [] :: pySplitSlash rest
    else (pySplitSlash rest).modifyHead (fun piece => c :: piece)

/-- Python `'/'.join(parts)`. -/
def pyJoinSlash : List (List Char) → List Char
  | [] => []
  | [p] => p
  | p :: q :: ps => p ++ '/' :: pyJoinSlash (q :: ps)

/-- Python `s.rstrip('/')`: removes every trailing slash. -/
def pyRstripSlash (s : List Char) : List Char :=
  (s.reverse.dropWhile (fun c => c = '/')).reverse

/-- Python `s.lstrip('/')`: removes every leading slash. -/
def pyLstripSlash (s : List Char) : List Char :=
  s.dropWhile (fun c => c = '/')

/-- Python `s.endswith('/')`. -/
def endsWithSlash (s : List Char) : Bool :=
  s.getLast? == some '/'

/-- Prefix normalization from `get_directory_contents` (app.py line 200):
`prefix if prefix.endswith('/') or prefix == '' else prefix + '/'`. -/
def normalizePfx (p : List Char) : List Char :=
  if endsWithSlash p || p == [] then p else p ++ ['/']

/-- One raw object returned by the remote listing: key, size in bytes and
last-modified timestamp. -/
structure Blob where
  name : List Char
  size : Nat
  last_modified : Nat
  deriving DecidableEq

/-- One listing entry produced by `get_directory_contents`: the Python
dicts of app.py lines 224-232, where a directory dict carries no `size`
or `last_modified` key (modelled as `none`). -/
structure Entry where
  name : List Char
  is_directory : Bool
  size : Option Nat
  last_modified : Option Nat
  deriving DecidableEq

/-- The listing loop of `get_directory_contents` (app.py lines 210-228):
processes blobs in listing order, accumulating the set of directory paths
(the Python `set` with its membership-checked insertion) and the file
list. -/
def gdcLoop (p : List Char) (dirs : List (List Char)) (files : List Blob) :
    List Blob → List (List Char) × List Blob
  | [] => (dirs, files)
  | b :: bs =>
    let relative := b.name.drop p.length
    if relative = [] then gdcLoop p dirs files bs
    else if '/' ∈ relative then
      let dir_path := p ++ (pySplitSlash relative).headI ++ ['/']
      if dir_path ∈ dirs then gdcLoop p dirs files bs
      else gdcLoop p (dirs ++ [dir_path]) files bs
    else gdcLoop p dirs (files ++ [b]) bs

/-- Python `sorted` on a collection of strings. -/
def sortKeys (l : List (List Char)) : List (List Char) :=
  List.insertionSort (fun a b => a ≤ b) l

/-- Comparison used by `sorted(files, key=lambda x: x['name'])`. -/
def blobLe (a b : Blob) : Prop := a.name ≤ b.name

/-- Strict version of `blobLe`; useful because blobs sorted by `blobLe`
with pairwise-distinct names are sorted by `blobLt`. -/
def blobLt (a b : Blob) : Prop := a.name < b.name

instance : DecidableRel blobLe := fun a b => inferInstanceAs (Decidable (a.name ≤ b.name))

instance : DecidableRel blobLt := fun a b => inferInstanceAs (Decidable (a.name < b.name))

/-- Python `sorted(files, key=lambda x: x['name'])`. -/
def sortBlobs (l : List Blob) : List Blob :=
  List.insertionSort blobLe l

/-- The file-entry dict built at app.py lines 224-228 and 232. -/
def mkFileEntry (b : Blob) : Entry :=
  ⟨b.name, false, some b.size, some b.last_modified⟩

/-- The directory-entry dict built at app.py line 231. -/
def mkDirEntry (d : List Char) : Entry :=
  ⟨d, true, none, none⟩

/-- Embedding of `get_directory_contents` (app.py lines 193-234).  The
remote listing is passed in as `blobs`, the list of objects the store
returns for `list_blobs(name_starts_with=normalized prefix)`. -/
def get_directory_contents (blobs : List Blob) (pfx : List Char) : List Entry :=
  let p := normalizePfx pfx
  let df := gdcLoop p [] [] blobs
  (sortKeys df.1).map mkDirEntry ++ (sortBlobs df.2).map mkFileEntry

/-- The Back-button path computation of `show_navigation` (app.py lines
314-317): strip trailing slashes, split on `/`, drop the last segment,
rejoin, and re-append a trailing slash if the result is non-empty. -/
def parentOf (p : List Char) : List Char :=
  let parts := pySplitSlash (pyRstripSlash p)
  let joined := pyJoinSlash parts.dropLast
  if joined = [] then joined else joined ++ ['/']

/-- Number of slash-separated segments of the trailing-slash-trimmed form
of a path: the step bound in the spec's termination property for the
Back-button computation. -/
def segments (x : List Char) : Nat :=
  (pySplitSlash (pyRstripSlash x)).length

/-- Python `posixpath.join(a, b)` for two arguments: an absolute `b`
discards `a`; otherwise `b` is appended, with a separator inserted unless
`a` is empty or already ends with a slash. -/
def posixJoin (a b : List Char) : List Char :=
  if b.head? == some '/' then b
  else if a == [] || endsWithSlash a then a ++ b
  else a ++ '/' :: b

/-- The blob name computed for one uploaded file (app.py line 287):
`posixpath.join(current_path, file.name).lstrip('/')`. -/
def uploadKey (current_path fileName : List Char) : List Char :=
  pyLstripSlash (posixJoin current_path fileName)

/-- A local file handed to `upload_files`: its client-side name and
content bytes. -/
structure LocalFile where
  name : List Char
  data : List Nat
  deriving DecidableEq

/-- Embedding of `upload_files` (app.py lines 283-291).  `upload_blob` may
raise; the oracle `fails` names the keys whose put raises.  The Python
wraps the whole `for` loop in a single try/except, so the loop stops at
the first raise.  Returns the (key, data) pairs actually uploaded, in
order, and the key at which the batch stopped, if any. -/
def upload_files (fails : List Char → Bool) (current_path : List Char) :
    List LocalFile → List (List Char × List Nat) × Option (List Char)
  | [] => ([], none)
  | f :: rest =>
    let key := uploadKey current_path f.name
    if fails key then ([], some key)
    else
      let out := upload_files fails current_path rest
      ((key, f.data) :: out.1, out.2)

/-- Embedding of the loop of `delete_directory` (app.py lines 410-420) over
the listing snapshot.  `listed` is what `list_blobs(name_starts_with=...)`
returned; the oracle `missing` names the objects that vanished between
listing and deletion, whose `delete_blob` raises `NotFound`.  The single
try/except around the loop stops the batch at the first raise.  Returns
the keys actually deleted and the function's boolean return value. -/
def delete_directory (missing : List Char → Bool) :
    List (List Char) → List (List Char) × Bool
  | [] => ([], true)
  | k :: ks =>
    if missing k then ([], false)
    else
      let out := delete_directory missing ks
      (k :: out.1, out.2)

/-- Embedding of `delete_directory` (app.py lines 410-420) including the
listing call: the snapshot is every key of `store` that starts with
`directory_path`. -/
def delete_directory_run (missing : List Char → Bool) (store : List (List Char))
    (directory_path : List Char) : List (List Char) × Bool :=
  delete_directory missing (store.filter (fun k => directory_path.isPrefixOf k))

/-- State touched by the delete-button handler: the container's keys and
the set of entry names whose `confirm_delete_` session flag is set. -/
structure BrowserState where
  store : List (List Char)
  pending : List (List Char)
  deriving DecidableEq

/-- Embedding of the delete-button handler of `show_file_browser` (app.py
lines 488-504) on the success path of the underlying deletes: with the
confirm flag unset it only sets the flag and warns; with the flag set it
deletes (single key for a file, every key with the prefix for a
directory).  No branch ever unsets the flag.  The boolean reports whether
a deletion was performed. -/
def requestDelete (s : BrowserState) (e : Entry) : BrowserState × Bool :=
  if e.name ∈ s.pending then
    if e.is_directory then
      ({ s with store := s.store.filter (fun k => !e.name.isPrefixOf k) }, true)
    else
      ({ s with store := s.store.filter (fun k => k != e.name) }, true)
  else
    ({ s with pending := s.pending ++ [e.name] }, false)

/-- The session state of app.py lines 16-25: connection flag, the two
client handles (opaque, modelled as optional ids), the current path, the
welcome flag, and the dynamically-created `confirm_delete_` entries. -/
structure SessionState where
  connected : Bool
  blob_service_client : Option Nat
  container_client : Option Nat
  current_path : List Char
  show_welcome : Bool
  confirm_delete : List (List Char)
  deriving DecidableEq

/-- Embedding of the disconnect branch of `show_sidebar` (app.py lines
389-395): exactly the five session fields it assigns; every other
session-state entry — in particular the `confirm_delete_` flags — is left
untouched. -/
def disconnect (s : SessionState) : SessionState :=
  { s with blob_service_client := none, container_client := none,
           connected := false, current_path := [], show_welcome := true }

/-- A stored blob as the download path sees it: the chunk sequence its
download stream yields.  The full content is the concatenation of the
chunks. -/
structure RemoteBlob where
  chunks : List (List Nat)
  deriving DecidableEq

/-- Azure's `DownloadStream.readall()`: the full content. -/
def readall (b : RemoteBlob) : List Nat := b.chunks.flatten

/-- Azure's `properties.size`: the content length in bytes. -/
def blobSize (b : RemoteBlob) : Nat := (readall b).length

/-- Embedding of the first `download_blob` (app.py lines 240-281): for
blobs over 10 MiB it accumulates the download stream's chunks into a
buffer (the progress-bar updates do not affect the returned bytes);
otherwise it calls `readall`.  `none` models the except branch when the
blob does not exist. -/
def download_blob_v1 (store : List Char → Option RemoteBlob) (blob_name : List Char) :
    Option (List Nat) :=
  match store blob_name with
  | none => none
  | some b =>
    if blobSize b > 10 * 1024 * 1024 then
      some (b.chunks.foldl (fun acc c => acc ++ c) [])
    else
      some (readall b)

/-- Embedding of the second `download_blob` (app.py lines 294-302), the
definition that shadows the first: a direct `readall`. -/
def download_blob_v2 (store : List Char → Option RemoteBlob) (blob_name : List Char) :
    Option (List Nat) :=
  match store blob_name with
  | none => none
  | some b => some (readall b)

/-! ### Helper lemmas -/

lemma takeWhile_append_of_all {p : Char → Bool} {l₁ : List Char} (l₂ : List Char)
    (h : ∀ a ∈ l₁, p a = true) :
    (l₁ ++ l₂).takeWhile p = l₁ ++ l₂.takeWhile p := by
  induction l₁ with
  | nil => simp
  | cons a t ih =>
    have ha := h a (by simp)
    have iht := ih (fun x hx => h x (by simp [hx]))
    simp [List.takeWhile_cons, ha, iht]

lemma takeWhile_eq_self_of_all {p : Char → Bool} {l : List Char}
    (h : ∀ a ∈ l, p a = true) : l.takeWhile p = l := by
  have := @takeWhile_append_of_all p l [] h

  simpa using this

lemma foldl_append_eq_flatten (l : List (List Nat)) (acc : List Nat) :
    l.foldl (fun a c => a ++ c) acc = acc ++ l.flatten := by
  induction l generalizing acc with
  | nil => simp
  | cons x xs ih => simp [ih, List.append_assoc]

/-! ### C4: the upload key computation -/

lemma head?_ne_slash_of_not_mem {f : List Char} (hf : '/' ∉ f) :
    (f.head? == some '/') = false := by
  cases f with
  | nil => rfl
  | cons c t =>
    simp only [List.head?_cons, beq_eq_false_iff_ne, ne_eq, Option.some.injEq]
    intro hc
    exact hf (by simp [hc])

lemma uploadKey_eq_append {p f : List Char}
    (hnorm : p = [] ∨ endsWithSlash p = true)
    (hlead : p.head? ≠ some '/')
    (hf : '/' ∉ f) :
    uploadKey p f = p ++ f := by
  unfold uploadKey posixJoin
  rw [head?_ne_slash_of_not_mem hf]
  have hcond : (p == [] || endsWithSlash p) = true := by
    rcases hnorm with h | h
    · simp [h]
    · simp [h]
  simp only [Bool.false_eq_true, if_false, hcond, if_true]
  unfold pyLstripSlash
  cases p with
  | nil =>
    simp only [List.nil_append]
    cases f with
    | nil => rfl
    | cons c t =>
      have hc : (c = '/') = False := by
        simp only [eq_iff_iff, iff_false]
        intro hc
        exact hf (by simp [hc])
      simp [List.dropWhile_cons, hc]
  | cons c t =>
    have hc : (c = '/') = False := by
      simp only [eq_iff_iff, iff_false]
      intro hc
      exact hlead (by simp [hc])
    simp [List.dropWhile_cons, hc]

lemma takeWhile_rev_append {q g : List Char}
    (hq : q = [] ∨ endsWithSlash q = true) (hg : '/' ∉ g) :
    (g.reverse ++ q.reverse).takeWhile (fun c => c != '/') = g.reverse := by
  have hall : ∀ a ∈ g.reverse, (a != '/') = true := by
    intro a ha
    simp only [bne_iff_ne, ne_eq]
    intro h
    exact hg (by simpa [h] using List.mem_reverse.mp ha)
  rw [takeWhile_append_of_all _ hall]
  rcases hq with h | h
  · simp [h]
  · have : q.reverse.head? = some '/' := by
      rw [List.head?_reverse]
      simpa [endsWithSlash] using h
    cases hqr : q.reverse with
    | nil => simp [hqr] at this
    | cons c t =>
      rw [hqr] at this
      simp only [List.head?_cons, Option.some.injEq] at this
      simp [List.takeWhile_cons, this]

lemma append_norm_inj {p f p' f' : List Char}
    (hnorm : p = [] ∨ endsWithSlash p = true) (hf : '/' ∉ f)
    (hnorm' : p' = [] ∨ endsWithSlash p' = true) (hf' : '/' ∉ f')
    (h : p' ++ f' = p ++ f) : p' = p ∧ f' = f := by
  have hr : f'.reverse ++ p'.reverse = f.reverse ++ p.reverse := by
    have := congrArg List.reverse h
    simpa [List.reverse_append] using this
  have hfeq : f'.reverse = f.reverse := by
    have h1 := takeWhile_rev_append hnorm' hf'
    have h2 := takeWhile_rev_append hnorm hf
    rw [hr] at h1
    rw [h1] at h2
    exact h2
  have hff : f' = f := by
    have := congrArg List.reverse hfeq
    simpa using this
  subst hff
  exact ⟨List.append_cancel_right h, rfl⟩

/-- C4 (corrected): for a normalized current path (empty or ending in a
slash) that does not itself start with a slash, and a file name containing
no slash, the uploaded blob name is the plain concatenation of path and
file name, and the mapping is injective over such pairs.  (As originally
stated — over every current path — both the concatenation equation and
injectivity fail, see the counterexample.) -/
theorem uploadKey_amended (p f : List Char)
    (hnorm : p = [] ∨ endsWithSlash p = true)
    (hlead : p.head? ≠ some '/')
    (hf : '/' ∉ f) :
    uploadKey p f = p ++ f
    ∧ ∀ p' f', (p' = [] ∨ endsWithSlash p' = true) → p'.head? ≠ some '/' → '/' ∉ f' →
        uploadKey p' f' = uploadKey p f → p' = p ∧ f' = f := by
  refine ⟨uploadKey_eq_append hnorm hlead hf, ?_⟩
  intro p' f' hnorm' hlead' hf' heq
  rw [uploadKey_eq_append hnorm hlead hf, uploadKey_eq_append hnorm' hlead' hf'] at heq
  exact append_norm_inj hnorm hf hnorm' hf' heq

/-- Witness for C4's amended theorem at `currentPrefix = "dir/"`,
`fileName = "a.txt"`: the key is exactly `"dir/a.txt"`. -/
theorem uploadKey_amended_witness :
    (("dir/".data = ([] : List Char) ∨ endsWithSlash "dir/".data = true)
      ∧ ("dir/".data.head? ≠ some '/')
      ∧ ('/' ∉ "a.txt".data))
    ∧ uploadKey "dir/".data "a.txt".data = "dir/".data ++ "a.txt".data :=
  ⟨⟨by decide, by decide, by decide⟩,
    (uploadKey_amended "dir/".data "a.txt".data (by decide) (by decide) (by decide)).1⟩

/-- Counterexample for C4 as stated: over arbitrary current paths the
mapping is not injective — the normalized paths `"/"` and `""` with file
name `"a.txt"` produce the same key — and the computed key is not the
stripped concatenation when the path lacks a trailing slash. -/
theorem uploadKey_counter :
    uploadKey "/".data "a.txt".data = uploadKey "".data "a.txt".data
    ∧ "/".data ≠ "".data
    ∧ '/' ∉ "a.txt".data
    ∧ uploadKey "dir".data "a.txt".data ≠ pyLstripSlash ("dir".data ++ "a.txt".data) := by
  decide

/-! ### C5: upload batch behavior -/

/-- C5 (corrected): `upload_files` is not fail-open.  Because the single
try/except wraps the whole loop, the batch uploads exactly the longest
prefix of files whose put succeeds, in order, and stops at the first
failing put; the files after the first failure are never attempted.  The
claimed per-file independence fails, see the counterexample. -/
theorem upload_files_aborts_at_first_failure (fails : List Char → Bool)
    (cp : List Char) (files : List LocalFile) :
    upload_files fails cp files =
      ((files.takeWhile (fun f => !fails (uploadKey cp f.name))).map
          (fun f => (uploadKey cp f.name, f.data)),
        ((files.map (fun f => uploadKey cp f.name)).dropWhile (fun k => !fails k)).head?) := by
  induction files with
  | nil => rfl
  | cons f rest ih =>
    by_cases h : fails (uploadKey cp f.name)
    · simp [upload_files, h, List.takeWhile_cons, List.dropWhile_cons]
    · simp [upload_files, h, List.takeWhile_cons, List.dropWhile_cons, ih]

/-- Counterexample for C5 as stated: with two files whose first put fails
and second put would succeed, nothing is uploaded at all — the second file
is not attempted, so one failing upload does abort the rest of the
batch. -/
theorem upload_files_counter :
    upload_files (fun k => k == "a.txt".data) []
        [⟨"a.txt".data, [1]⟩, ⟨"b.txt".data, [2]⟩] = ([], some "a.txt".data)
    ∧ (fun k => k == "a.txt".data) (uploadKey [] "b.txt".data) = false := by
  decide

/-! ### C6: directory delete batch behavior -/

lemma delete_directory_eq_takeWhile (missing : List Char → Bool) (listed : List (List Char)) :
    delete_directory missing listed =
      (listed.takeWhile (fun k => !missing k), listed.all (fun k => !missing k)) := by
  induction listed with
  | nil => rfl
  | cons k ks ih =>
    by_cases h : missing k
    · simp [delete_directory, h, List.takeWhile_cons]
    · simp [delete_directory, h, List.takeWhile_cons, ih]

/-- C6 (corrected): `delete_directory` is not best-effort.  The single
try/except wraps the whole loop, so over the listed objects with the
requested path as a prefix it deletes exactly the longest prefix of the
listing on which no delete raises `NotFound`, stops at the first raise,
and returns `True` only when no listed object vanished.  A mid-iteration
`NotFound` does abort the batch, see the counterexample. -/
theorem delete_directory_aborts_at_first_notfound (missing : List Char → Bool)
    (store : List (List Char)) (directory_path : List Char) :
    delete_directory_run missing store directory_path =
      ((store.filter (fun k => directory_path.isPrefixOf k)).takeWhile (fun k => !missing k),
        (store.filter (fun k => directory_path.isPrefixOf k)).all (fun k => !missing k)) := by
  unfold delete_directory_run
  exact delete_directory_eq_takeWhile missing _

/-- Counterexample for C6 as stated: two listed objects under `"d/"`; the
first vanished mid-iteration (its delete raises `NotFound`) while the
second is still present, yet nothing is deleted — the remaining object
with the prefix is not deleted, so the batch does abort. -/
theorem delete_directory_counter :
    delete_directory_run (fun k => k == "d/a".data) ["d/a".data, "d/b".data] "d/".data
        = ([], false)
    ∧ (fun k => k == "d/a".data) "d/b".data = false
    ∧ ("d/".data).isPrefixOf "d/b".data = true := by
  decide

/-! ### C7: the two-click delete confirmation -/

/-- C7 (corrected): the first `requestDelete` on an entry only marks it
pending and deletes nothing; the second invocation while pending performs
the deletion (single key for a file, every key with the entry's name as a
prefix for a directory) — but the pending flag is NOT cleared on success:
no branch of the handler ever unsets the `confirm_delete_` session flag. -/
theorem requestDelete_amended (s : BrowserState) (e : Entry) :
    (e.name ∉ s.pending →
      requestDelete s e = ({ s with pending := s.pending ++ [e.name] }, false))
    ∧ (e.name ∈ s.pending →
      (requestDelete s e).2 = true
      ∧ (requestDelete s e).1.pending = s.pending
      ∧ (requestDelete s e).1.store =
          (if e.is_directory then s.store.filter (fun k => !e.name.isPrefixOf k)
            else s.store.filter (fun k => k != e.name))) := by
  constructor
  · intro h
    simp [requestDelete, h]
  · intro h
    by_cases hd : e.is_directory
    · simp [requestDelete, h, hd]
    · simp [requestDelete, h, hd]

/-- Witness for C7's amended theorem: both invocations on a concrete
file entry. -/
theorem requestDelete_amended_witness :
    ("a".data ∉ (([] : List (List Char)))
      ∧ requestDelete ⟨["a".data], []⟩ ⟨"a".data, false, some 1, some 0⟩ =
          (⟨["a".data], ["a".data]⟩, false))
    ∧ ("a".data ∈ (["a".data] : List (List Char))
      ∧ (requestDelete ⟨[], ["a".data]⟩ ⟨"a".data, false, some 1, some 0⟩).2 = true) :=
  ⟨⟨by decide,
      (requestDelete_amended ⟨["a".data], []⟩ ⟨"a".data, false, some 1, some 0⟩).1 (by decide)⟩,
    ⟨by decide,
      ((requestDelete_amended ⟨[], ["a".data]⟩ ⟨"a".data, false, some 1, some 0⟩).2 (by decide)).1⟩⟩

/-- Counterexample for C7 as stated: two consecutive `requestDelete` calls
on the same file entry do delete the object, but the entry's pending flag
is still set afterwards — it is not cleared on success. -/
theorem requestDelete_counter :
    (requestDelete (requestDelete ⟨["a".data], []⟩ ⟨"a".data, false, some 1, some 0⟩).1
        ⟨"a".data, false, some 1, some 0⟩).1.store = []
    ∧ (requestDelete (requestDelete ⟨["a".data], []⟩ ⟨"a".data, false, some 1, some 0⟩).1
        ⟨"a".data, false, some 1, some 0⟩).2 = true
    ∧ "a".data ∈ (requestDelete (requestDelete ⟨["a".data], []⟩ ⟨"a".data, false, some 1, some 0⟩).1
        ⟨"a".data, false, some 1, some 0⟩).1.pending := by
  decide

/-! ### C9: disconnect -/

/-- C9 (corrected): disconnect invalidates both storage clients, returns
to the unauthenticated state, resets the current path to the empty string
and re-enables the welcome screen — but it leaves every pending
delete-confirmation entry behind: the `confirm_delete_` session flags are
untouched. -/
theorem disconnect_amended (s : SessionState) :
    (disconnect s).connected = false
    ∧ (disconnect s).blob_service_client = none
    ∧ (disconnect s).container_client = none
    ∧ (disconnect s).current_path = []
    ∧ (disconnect s).show_welcome = true
    ∧ (disconnect s).confirm_delete = s.confirm_delete :=
  ⟨rfl, rfl, rfl, rfl, rfl, rfl⟩

/-- Counterexample for C9 as stated: a session with one pending
delete-confirmation entry still has it after disconnect. -/
theorem disconnect_counter :
    (disconnect ⟨true, some 1, some 2, "dir/".data, false, ["a".data]⟩).confirm_delete ≠ [] := by
  decide

/-! ### C10: the two download_blob definitions agree -/

/-- C10 (confirmed): on the success path — the blob exists — the first
(chunked, progress-reporting) `download_blob` and the second
(direct-readall) definition that shadows it both return exactly the
blob's full byte content, so the shadowing does not change the bytes
delivered to the caller. -/
theorem download_blob_shadowing_preserves_bytes
    (store : List Char → Option RemoteBlob) (blob_name : List Char) (b : RemoteBlob)
    (h : store blob_name = some b) :
    download_blob_v1 store blob_name = some (readall b)
    ∧ download_blob_v2 store blob_name = some (readall b) := by
  unfold download_blob_v1 download_blob_v2
  rw [h]
  constructor
  · by_cases hs : blobSize b > 10 * 1024 * 1024
    · simp [hs, foldl_append_eq_flatten, readall]
    · simp [hs]
  · rfl

/-- Witness for C10 at a concrete one-blob store with a chunked blob. -/
theorem download_blob_shadowing_witness :
    ((fun n => if n = "a".data then some (RemoteBlob.mk [[1, 2], [3]]) else none) "a".data
        = some (RemoteBlob.mk [[1, 2], [3]]))
    ∧ (download_blob_v1
          (fun n => if n = "a".data then some (RemoteBlob.mk [[1, 2], [3]]) else none) "a".data
        = some (readall (RemoteBlob.mk [[1, 2], [3]]))
      ∧ download_blob_v2
          (fun n => if n = "a".data then some (RemoteBlob.mk [[1, 2], [3]]) else none) "a".data
        = some (readall (RemoteBlob.mk [[1, 2], [3]]))) :=
  ⟨by decide,
    download_blob_shadowing_preserves_bytes
      (fun n => if n = "a".data then some (RemoteBlob.mk [[1, 2], [3]]) else none)
      "a".data (RemoteBlob.mk [[1, 2], [3]]) (by decide)⟩

/-! ### Structure of the listing loop -/

lemma pySplitSlash_ne_nil (s : List Char) : pySplitSlash s ≠ [] := by
  induction s with
  | nil => simp [pySplitSlash]
  | cons c rest ih =>
    by_cases h : c = '/'
    · simp [pySplitSlash, h]
    · simp only [pySplitSlash, h, if_false]
      cases hsp : pySplitSlash rest with
      | nil => exact absurd hsp ih
      | cons a t => simp [List.modifyHead_cons]

lemma headI_pySplitSlash (s : List Char) :
    (pySplitSlash s).headI = s.takeWhile (fun c => c != '/') := by
  induction s with
  | nil => rfl
  | cons c rest ih =>
    by_cases h : c = '/'
    · simp [pySplitSlash, h, List.takeWhile_cons]
    · cases hsp : pySplitSlash rest with
      | nil => exact absurd hsp (pySplitSlash_ne_nil rest)
      | cons a t =>
        have ih' : a = rest.takeWhile (fun c => c != '/') := by
          simpa [hsp] using ih
        simp [pySplitSlash, h, List.takeWhile_cons, hsp, List.modifyHead_cons, ih']

/-- The directory paths the loop registers for a given listing: one for
each blob whose relative path contains a slash, built from its first
segment. -/
def dirCandidates (p : List Char) (bs : List Blob) : List (List Char) :=
  (bs.filter (fun b => decide ('/' ∈ b.name.drop p.length))).map
    (fun b => p ++ (pySplitSlash (b.name.drop p.length)).headI ++ ['/'])

lemma gdcLoop_dirs_mem (p d : List Char) :
    ∀ (bs : List Blob) (dirs : List (List Char)) (files : List Blob),
      d ∈ (gdcLoop p dirs files bs).1 ↔ d ∈ dirs ∨ d ∈ dirCandidates p bs := by
  intro bs
  induction bs with
  | nil =>
    intro dirs files
    simp [gdcLoop, dirCandidates]
  | cons b bs ih =>
    intro dirs files
    by_cases h1 : b.name.drop p.length = []
    · have h2 : ¬ ('/' ∈ b.name.drop p.length) := by simp [h1]
      simp only [gdcLoop, h1, if_true]
      rw [ih]
      simp [dirCandidates, List.filter_cons, h2]
    · by_cases h2 : '/' ∈ b.name.drop p.length
      · have hcand : dirCandidates p (b :: bs) =
            (p ++ (pySplitSlash (b.name.drop p.length)).headI ++ ['/']) :: dirCandidates p bs := by
          simp [dirCandidates, List.filter_cons, h2]
        by_cases h3 : (p ++ (pySplitSlash (b.name.drop p.length)).headI ++ ['/']) ∈ dirs
        · simp only [gdcLoop, h1, if_false, h2, if_true, h3]
          rw [ih, hcand, List.mem_cons]
          constructor
          · rintro (hd | hc)
            · exact Or.inl hd
            · exact Or.inr (Or.inr hc)
          · rintro (hd | rfl | hc)
            · exact Or.inl hd
            · exact Or.inl h3
            · exact Or.inr hc
        · simp only [gdcLoop, h1, if_false, h2, if_true, h3]
          rw [ih, hcand, List.mem_cons, List.mem_append, List.mem_singleton]
          tauto
      · simp only [gdcLoop, h1, if_false, h2]
        rw [ih]
        simp [dirCandidates, List.filter_cons, h2]

/-- Predicate for blobs that are direct files of the listed directory:
non-empty relative path containing no slash. -/
def isDirectFile (p : List Char) (b : Blob) : Bool :=
  decide (b.name.drop p.length ≠ []) && decide ('/' ∉ b.name.drop p.length)

lemma gdcLoop_files_eq (p : List Char) :
    ∀ (bs : List Blob) (dirs : List (List Char)) (files : List Blob),
      (gdcLoop p dirs files bs).2 = files ++ bs.filter (isDirectFile p) := by
  intro bs
  induction bs with
  | nil =>
    intro dirs files
    simp [gdcLoop]
  | cons b bs ih =>
    intro dirs files
    by_cases h1 : b.name.drop p.length = []
    · simp only [gdcLoop, h1, if_true]
      rw [ih]
      simp [List.filter_cons, isDirectFile, h1]
    · by_cases h2 : '/' ∈ b.name.drop p.length
      · by_cases h3 : (p ++ (pySplitSlash (b.name.drop p.length)).headI ++ ['/']) ∈ dirs
        · simp only [gdcLoop, h1, if_false, h2, if_true, h3]
          rw [ih]
          simp [List.filter_cons, isDirectFile, h1, h2]
        · simp only [gdcLoop, h1, if_false, h2, if_true, h3]
          rw [ih]
          simp [List.filter_cons, isDirectFile, h1, h2]
      · simp only [gdcLoop, h1, if_false, h2]
        rw [ih]
        simp [List.filter_cons, isDirectFile, h1, h2, List.append_assoc]

lemma gdcLoop_dirs_nodup (p : List Char) :
    ∀ (bs : List Blob) (dirs : List (List Char)) (files : List Blob),
      dirs.Nodup → (gdcLoop p dirs files bs).1.Nodup := by
  intro bs
  induction bs with
  | nil =>
    intro dirs files h
    simpa [gdcLoop] using h
  | cons b bs ih =>
    intro dirs files h
    by_cases h1 : b.name.drop p.length = []
    · simp only [gdcLoop, h1, if_true]
      exact ih dirs files h
    · by_cases h2 : '/' ∈ b.name.drop p.length
      · by_cases h3 : (p ++ (pySplitSlash (b.name.drop p.length)).headI ++ ['/']) ∈ dirs
        · simp only [gdcLoop, h1, if_false, h2, if_true, h3]
          exact ih dirs files h
        · simp only [gdcLoop, h1, if_false, h2, if_true, h3]
          refine ih _ files ?_
          rw [List.nodup_append]
          refine ⟨h, List.nodup_singleton _, ?_⟩
          rw [List.disjoint_singleton]
          exact h3
      · simp only [gdcLoop, h1, if_false, h2]
        exact ih dirs (files ++ [b]) h

lemma normalizePfx_eq_self {p : List Char} (h : p = [] ∨ endsWithSlash p = true) :
    normalizePfx p = p := by
  rcases h with h | h
  · simp [normalizePfx, h]
  · simp [normalizePfx, h]

lemma getLast?_append_slash (x : List Char) : (x ++ ['/']).getLast? = some '/' := by
  simp [List.getLast?_append]

lemma getLast?_eq_getLast?_drop {l : List Char} {n : Nat} (h : l.drop n ≠ []) :
    l.getLast? = (l.drop n).getLast? := by
  conv_lhs => rw [← List.take_append_drop n l]
  rw [List.getLast?_append, List.getLast?_eq_getLast _ h]
  simp

/-! ### C3: the ListingEntry invariant -/

/-- C3 (confirmed): every entry of a listing satisfies the ListingEntry
invariant: a directory entry carries no size or last-modified value and
its name ends with a slash; a file entry's name never ends with a slash —
so a raw key with a trailing slash (such as one equal to an inferred
directory) can only surface as a directory entry, never as a file
entry. -/
theorem listing_entry_invariant (blobs : List Blob) (pfx : List Char) (e : Entry)
    (he : e ∈ get_directory_contents blobs pfx) :
    (e.is_directory = true →
      e.size = none ∧ e.last_modified = none ∧ e.name.getLast? = some '/')
    ∧ (e.is_directory = false → e.name.getLast? ≠ some '/') := by
  unfold get_directory_contents at he
  rw [List.mem_append] at he
  rcases he with hd | hf
  · rcases List.mem_map.mp hd with ⟨d, hdmem, rfl⟩
    have hdm : d ∈ (gdcLoop (normalizePfx pfx) [] [] blobs).1 :=
      (List.perm_insertionSort _ _).mem_iff.mp hdmem
    have hcand : d ∈ dirCandidates (normalizePfx pfx) blobs := by
      rcases (gdcLoop_dirs_mem _ d blobs [] []).mp hdm with h | h
      · exact absurd h (List.not_mem_nil d)
      · exact h
    rcases List.mem_map.mp hcand with ⟨b, _, hb⟩
    have hlast : d.getLast? = some '/' := by
      rw [← hb]
      exact getLast?_append_slash _
    refine ⟨fun _ => ⟨rfl, rfl, hlast⟩, fun hfalse => ?_⟩
    simp [mkDirEntry] at hfalse
  · rcases List.mem_map.mp hf with ⟨b, hbmem, rfl⟩
    have hbm : b ∈ (gdcLoop (normalizePfx pfx) [] [] blobs).2 :=
      (List.perm_insertionSort _ _).mem_iff.mp hbmem
    rw [gdcLoop_files_eq, List.nil_append] at hbm
    have hpred : isDirectFile (normalizePfx pfx) b = true := (List.mem_filter.mp hbm).2
    rw [isDirectFile, Bool.and_eq_true, decide_eq_true_eq, decide_eq_true_eq] at hpred
    obtain ⟨h1, h2⟩ := hpred
    have hlast : b.name.getLast? ≠ some '/' := by
      rw [getLast?_eq_getLast?_drop h1, List.getLast?_eq_getLast _ h1]
      intro hcontr
      have : (b.name.drop (normalizePfx pfx).length).getLast h1
          ∈ b.name.drop (normalizePfx pfx).length := List.getLast_mem h1
      rw [Option.some.injEq] at hcontr
      rw [hcontr] at this
      exact h2 this
    refine ⟨fun htrue => ?_, fun _ => hlast⟩
    simp [mkFileEntry] at htrue

/-- Witness for C3 on a concrete listing holding both a directory and a
file entry. -/
theorem listing_entry_invariant_witness :
    ((⟨"d/".data, true, none, none⟩ : Entry) ∈
        get_directory_contents [⟨"a.txt".data, 5, 0⟩, ⟨"d/x".data, 1, 0⟩] [])
    ∧ (((⟨"d/".data, true, none, none⟩ : Entry).is_directory = true →
          (⟨"d/".data, true, none, none⟩ : Entry).size = none
          ∧ (⟨"d/".data, true, none, none⟩ : Entry).last_modified = none
          ∧ (⟨"d/".data, true, none, none⟩ : Entry).name.getLast? = some '/')
      ∧ ((⟨"d/".data, true, none, none⟩ : Entry).is_directory = false →
          (⟨"d/".data, true, none, none⟩ : Entry).name.getLast? ≠ some '/')) :=
  ⟨by decide,
    listing_entry_invariant [⟨"a.txt".data, 5, 0⟩, ⟨"d/x".data, 1, 0⟩] []
      ⟨"d/".data, true, none, none⟩ (by decide)⟩

/-! ### C1: the resolver's partition of the raw listing -/

lemma gdc_eq (blobs : List Blob) (pfx : List Char) :
    get_directory_contents blobs pfx =
      (sortKeys (gdcLoop (normalizePfx pfx) [] [] blobs).1).map mkDirEntry
      ++ (sortBlobs (gdcLoop (normalizePfx pfx) [] [] blobs).2).map mkFileEntry := rfl

lemma mkDirEntry_not_mem_files (d : List Char) (l : List Blob) :
    mkDirEntry d ∉ l.map mkFileEntry := by
  intro hmem
  rcases List.mem_map.mp hmem with ⟨b, _, hb⟩
  have := congrArg Entry.is_directory hb
  simp [mkDirEntry, mkFileEntry] at this

lemma gdc_filter_dirs (blobs : List Blob) (pfx : List Char) :
    (get_directory_contents blobs pfx).filter (fun e => e.is_directory) =
      (sortKeys (gdcLoop (normalizePfx pfx) [] [] blobs).1).map mkDirEntry := by
  rw [gdc_eq, List.filter_append]
  have hA : ((sortKeys (gdcLoop (normalizePfx pfx) [] [] blobs).1).map mkDirEntry).filter
      (fun e => e.is_directory) =
      (sortKeys (gdcLoop (normalizePfx pfx) [] [] blobs).1).map mkDirEntry := by
    apply List.filter_eq_self.mpr
    intro e he
    rcases List.mem_map.mp he with ⟨d, _, rfl⟩
    simp [mkDirEntry]
  have hB : ((sortBlobs (gdcLoop (normalizePfx pfx) [] [] blobs).2).map mkFileEntry).filter
      (fun e => e.is_directory) = [] := by
    apply List.filter_eq_nil_iff.mpr
    intro e he
    rcases List.mem_map.mp he with ⟨b, _, rfl⟩
    simp [mkFileEntry]
  rw [hA, hB, List.append_nil]

lemma gdc_filter_files (blobs : List Blob) (pfx : List Char) :
    (get_directory_contents blobs pfx).filter (fun e => !e.is_directory) =
      (sortBlobs (gdcLoop (normalizePfx pfx) [] [] blobs).2).map mkFileEntry := by
  rw [gdc_eq, List.filter_append]
  have hA : ((sortKeys (gdcLoop (normalizePfx pfx) [] [] blobs).1).map mkDirEntry).filter
      (fun e => !e.is_directory) = [] := by
    apply List.filter_eq_nil_iff.mpr
    intro e he
    rcases List.mem_map.mp he with ⟨d, _, rfl⟩
    simp [mkDirEntry]
  have hB : ((sortBlobs (gdcLoop (normalizePfx pfx) [] [] blobs).2).map mkFileEntry).filter
      (fun e => !e.is_directory) =
      (sortBlobs (gdcLoop (normalizePfx pfx) [] [] blobs).2).map mkFileEntry := by
    apply List.filter_eq_self.mpr
    intro e he
    rcases List.mem_map.mp he with ⟨b, _, rfl⟩
    simp [mkFileEntry]
  rw [hA, hB, List.nil_append]

/-- C1 (confirmed): over a normalized prefix and a raw listing of keys
starting with it, the resolver partitions the listing totally and without
overlap: its directory entries are exactly the distinct first segments
(prefixed by the prefix, suffixed by a slash) of the keys whose
relative-to-prefix path contains a slash, one entry per immediate
subdirectory; its file entries are exactly the keys whose relative path is
non-empty and slash-free, carrying their size and timestamp; keys with an
empty relative path contribute nothing. -/
theorem resolver_partitions (blobs : List Blob) (pfx : List Char)
    (hnorm : pfx = [] ∨ endsWithSlash pfx = true)
    (hpre : ∀ b ∈ blobs, pfx <+: b.name) :
    (∀ d, mkDirEntry d ∈ get_directory_contents blobs pfx ↔
        ∃ b ∈ blobs, '/' ∈ b.name.drop pfx.length ∧
          d = pfx ++ (b.name.drop pfx.length).takeWhile (fun c => c != '/') ++ ['/'])
    ∧ (((get_directory_contents blobs pfx).filter (fun e => e.is_directory)).map
        Entry.name).Nodup
    ∧ ((get_directory_contents blobs pfx).filter (fun e => !e.is_directory)).Perm
        ((blobs.filter (isDirectFile pfx)).map mkFileEntry) := by
  have hp : normalizePfx pfx = pfx := normalizePfx_eq_self hnorm
  refine ⟨fun d => ?_, ?_, ?_⟩
  · rw [gdc_eq, hp]
    constructor
    · intro hmem
      rcases List.mem_append.mp hmem with hA | hB
      · rcases List.mem_map.mp hA with ⟨d', hd', he⟩
        have hdd : d' = d := congrArg Entry.name he
        subst hdd
        have hdm : d' ∈ (gdcLoop pfx [] [] blobs).1 :=
          (List.perm_insertionSort _ _).mem_iff.mp hd'
        have hcand : d' ∈ dirCandidates pfx blobs := by
          rcases (gdcLoop_dirs_mem pfx d' blobs [] []).mp hdm with h | h
          · exact absurd h (List.not_mem_nil d')
          · exact h
        rcases List.mem_map.mp hcand with ⟨b, hbf, hb⟩
        have hbmem := (List.mem_filter.mp hbf).1
        have hslash : '/' ∈ b.name.drop pfx.length := by
          have := (List.mem_filter.mp hbf).2
          rwa [decide_eq_true_eq] at this
        refine ⟨b, hbmem, hslash, ?_⟩
        rw [← hb, headI_pySplitSlash]
      · exact absurd hB (mkDirEntry_not_mem_files d _)
    · rintro ⟨b, hbmem, hslash, rfl⟩
      apply List.mem_append.mpr
      left
      apply List.mem_map.mpr
      refine ⟨pfx ++ (b.name.drop pfx.length).takeWhile (fun c => c != '/') ++ ['/'], ?_, rfl⟩
      apply (List.perm_insertionSort _ _).mem_iff.mpr
      apply (gdcLoop_dirs_mem pfx _ blobs [] []).mpr
      right
      apply List.mem_map.mpr
      refine ⟨b, List.mem_filter.mpr ⟨hbmem, by rw [decide_eq_true_eq]; exact hslash⟩, ?_⟩
      rw [headI_pySplitSlash]
  · rw [gdc_filter_dirs, hp, List.map_map]
    have hid : (Entry.name ∘ mkDirEntry) = id := rfl
    rw [hid, List.map_id]
    exact (List.perm_insertionSort _ _).nodup_iff.mpr
      (gdcLoop_dirs_nodup pfx blobs [] [] List.nodup_nil)
  · rw [gdc_filter_files, hp, gdcLoop_files_eq, List.nil_append]
    exact (List.perm_insertionSort _ _).map mkFileEntry

/-- Witness for C1 at prefix `"dir/"` over a listing containing the
prefix-placeholder key itself, a direct file and a deep object. -/
theorem resolver_partitions_witness :
    (("dir/".data = ([] : List Char) ∨ endsWithSlash "dir/".data = true)
      ∧ (∀ b ∈ [(⟨"dir/".data, 0, 0⟩ : Blob), ⟨"dir/b.txt".data, 3, 1⟩,
            ⟨"dir/sub/c.txt".data, 2, 2⟩], "dir/".data <+: b.name))
    ∧ ((∀ d, mkDirEntry d ∈ get_directory_contents
          [⟨"dir/".data, 0, 0⟩, ⟨"dir/b.txt".data, 3, 1⟩, ⟨"dir/sub/c.txt".data, 2, 2⟩]
          "dir/".data ↔
        ∃ b ∈ [(⟨"dir/".data, 0, 0⟩ : Blob), ⟨"dir/b.txt".data, 3, 1⟩,
            ⟨"dir/sub/c.txt".data, 2, 2⟩], '/' ∈ b.name.drop "dir/".data.length ∧
          d = "dir/".data ++ (b.name.drop "dir/".data.length).takeWhile (fun c => c != '/')
            ++ ['/'])
      ∧ (((get_directory_contents
            [⟨"dir/".data, 0, 0⟩, ⟨"dir/b.txt".data, 3, 1⟩, ⟨"dir/sub/c.txt".data, 2, 2⟩]
            "dir/".data).filter (fun e => e.is_directory)).map Entry.name).Nodup
      ∧ ((get_directory_contents
            [⟨"dir/".data, 0, 0⟩, ⟨"dir/b.txt".data, 3, 1⟩, ⟨"dir/sub/c.txt".data, 2, 2⟩]
            "dir/".data).filter (fun e => !e.is_directory)).Perm
          (([(⟨"dir/".data, 0, 0⟩ : Blob), ⟨"dir/b.txt".data, 3, 1⟩,
              ⟨"dir/sub/c.txt".data, 2, 2⟩].filter
            (isDirectFile "dir/".data)).map mkFileEntry)) :=
  ⟨⟨by decide, by decide⟩,
    resolver_partitions
      [⟨"dir/".data, 0, 0⟩, ⟨"dir/b.txt".data, 3, 1⟩, ⟨"dir/sub/c.txt".data, 2, 2⟩]
      "dir/".data (by decide) (by decide)⟩

/-! ### C2: ordering and determinism of the listing -/

instance : IsTotal Blob blobLe :=
  ⟨fun a b => le_total a.name b.name⟩

instance : IsTrans Blob blobLe :=
  ⟨fun _ _ _ h₁ h₂ => le_trans h₁ h₂⟩

instance : IsAntisymm Blob blobLt :=
  ⟨fun _ _ h₁ h₂ => absurd h₂ (lt_asymm h₁)⟩

lemma sortKeys_sorted (l : List (List Char)) :
    List.Sorted (fun a b => a ≤ b) (sortKeys l) :=
  List.sorted_insertionSort _ l

lemma sortBlobs_sorted (l : List Blob) : List.Sorted blobLe (sortBlobs l) :=
  List.sorted_insertionSort blobLe l

lemma sorted_blobLt_of_nodup_names {l : List Blob}
    (hnd : (l.map Blob.name).Nodup) (hs : List.Sorted blobLe l) :
    List.Sorted blobLt l := by
  have hne : l.Pairwise (fun a b => a.name ≠ b.name) := List.pairwise_map.mp hnd
  exact (List.Pairwise.and hs hne).imp (fun h => lt_of_le_of_ne h.1 h.2)

lemma dirCandidates_mem_congr {blobs blobs' : List Blob} (p : List Char)
    (hperm : blobs.Perm blobs') (d : List Char) :
    d ∈ dirCandidates p blobs ↔ d ∈ dirCandidates p blobs' := by
  unfold dirCandidates
  constructor <;> intro h <;> rcases List.mem_map.mp h with ⟨b, hbf, hb⟩
  · exact List.mem_map.mpr ⟨b, List.mem_filter.mpr
      ⟨hperm.mem_iff.mp (List.mem_filter.mp hbf).1, (List.mem_filter.mp hbf).2⟩, hb⟩
  · exact List.mem_map.mpr ⟨b, List.mem_filter.mpr
      ⟨hperm.mem_iff.mpr (List.mem_filter.mp hbf).1, (List.mem_filter.mp hbf).2⟩, hb⟩

/-- C2 (confirmed): every listing is ordered with all directory entries
first, sorted lexicographically by full key, followed by the file entries
sorted lexicographically by full key; and over raw listings — whose keys
are pairwise distinct — the output is independent of the order in which
the store returns the keys. -/
theorem listing_ordered_and_deterministic :
    (∀ (blobs : List Blob) (pfx : List Char), ∃ ds fs,
        get_directory_contents blobs pfx = ds ++ fs
        ∧ (∀ e ∈ ds, e.is_directory = true)
        ∧ (∀ e ∈ fs, e.is_directory = false)
        ∧ List.Sorted (fun a b => a ≤ b) (ds.map Entry.name)
        ∧ List.Sorted (fun a b => a ≤ b) (fs.map Entry.name))
    ∧ (∀ (blobs blobs' : List Blob) (pfx : List Char), blobs.Perm blobs' →
        (blobs.map Blob.name).Nodup →
        get_directory_contents blobs pfx = get_directory_contents blobs' pfx) := by
  constructor
  · intro blobs pfx
    refine ⟨(sortKeys (gdcLoop (normalizePfx pfx) [] [] blobs).1).map mkDirEntry,
      (sortBlobs (gdcLoop (normalizePfx pfx) [] [] blobs).2).map mkFileEntry,
      gdc_eq blobs pfx, ?_, ?_, ?_, ?_⟩
    · intro e he
      rcases List.mem_map.mp he with ⟨d, _, rfl⟩
      rfl
    · intro e he
      rcases List.mem_map.mp he with ⟨b, _, rfl⟩
      rfl
    · rw [List.map_map]
      have hid : (Entry.name ∘ mkDirEntry) = id := rfl
      rw [hid, List.map_id]
      exact sortKeys_sorted _
    · rw [List.map_map]
      have hid : (Entry.name ∘ mkFileEntry) = Blob.name := rfl
      rw [hid]
      exact List.pairwise_map.mpr ((sortBlobs_sorted _).imp (fun h => h))
  · intro blobs blobs' pfx hperm hnodup
    have hnodup' : (blobs'.map Blob.name).Nodup :=
      ((hperm.map Blob.name).nodup_iff).mp hnodup
    rw [gdc_eq, gdc_eq]
    have hdirs : sortKeys (gdcLoop (normalizePfx pfx) [] [] blobs).1 =
        sortKeys (gdcLoop (normalizePfx pfx) [] [] blobs').1 := by
      have hnd : (gdcLoop (normalizePfx pfx) [] [] blobs).1.Nodup :=
        gdcLoop_dirs_nodup _ blobs [] [] List.nodup_nil
      have hnd' : (gdcLoop (normalizePfx pfx) [] [] blobs').1.Nodup :=
        gdcLoop_dirs_nodup _ blobs' [] [] List.nodup_nil
      have hmemiff : ∀ d, d ∈ (gdcLoop (normalizePfx pfx) [] [] blobs).1 ↔
          d ∈ (gdcLoop (normalizePfx pfx) [] [] blobs').1 := by
        intro d
        rw [gdcLoop_dirs_mem, gdcLoop_dirs_mem]
        exact or_congr Iff.rfl (dirCandidates_mem_congr _ hperm d)
      have hDperm := (List.perm_ext_iff_of_nodup hnd hnd').mpr hmemiff
      exact List.eq_of_perm_of_sorted
        (((List.perm_insertionSort _ _).trans hDperm).trans
          (List.perm_insertionSort _ _).symm)
        (sortKeys_sorted _) (sortKeys_sorted _)
    have hfiles : sortBlobs (gdcLoop (normalizePfx pfx) [] [] blobs).2 =
        sortBlobs (gdcLoop (normalizePfx pfx) [] [] blobs').2 := by
      rw [gdcLoop_files_eq, gdcLoop_files_eq, List.nil_append, List.nil_append]
      have hFperm : (blobs.filter (isDirectFile (normalizePfx pfx))).Perm
          (blobs'.filter (isDirectFile (normalizePfx pfx))) :=
        hperm.filter _
      have hndF : ((blobs.filter (isDirectFile (normalizePfx pfx))).map Blob.name).Nodup :=
        ((List.filter_sublist blobs).map Blob.name).nodup hnodup
      have hndF' : ((blobs'.filter (isDirectFile (normalizePfx pfx))).map Blob.name).Nodup :=
        ((List.filter_sublist blobs').map Blob.name).nodup hnodup'
      have hndS : ((sortBlobs (blobs.filter (isDirectFile (normalizePfx pfx)))).map
          Blob.name).Nodup :=
        (((List.perm_insertionSort blobLe _).map Blob.name).nodup_iff).mpr hndF
      have hndS' : ((sortBlobs (blobs'.filter (isDirectFile (normalizePfx pfx)))).map
          Blob.name).Nodup :=
        (((List.perm_insertionSort blobLe _).map Blob.name).nodup_iff).mpr hndF'
      exact List.eq_of_perm_of_sorted
        (((List.perm_insertionSort blobLe _).trans hFperm).trans
          (List.perm_insertionSort blobLe _).symm)
        (sorted_blobLt_of_nodup_names hndS (sortBlobs_sorted _))
        (sorted_blobLt_of_nodup_names hndS' (sortBlobs_sorted _))
    rw [hdirs, hfiles]

/-- Witness for C2's determinism conjunct: two permuted two-element
listings with distinct keys produce the same directory view. -/
theorem listing_ordered_witness :
    (([(⟨"b".data, 1, 0⟩ : Blob), ⟨"a".data, 2, 0⟩].Perm
        [⟨"a".data, 2, 0⟩, ⟨"b".data, 1, 0⟩])
      ∧ ([(⟨"b".data, 1, 0⟩ : Blob), ⟨"a".data, 2, 0⟩].map Blob.name).Nodup)
    ∧ get_directory_contents [⟨"b".data, 1, 0⟩, ⟨"a".data, 2, 0⟩] [] =
        get_directory_contents [⟨"a".data, 2, 0⟩, ⟨"b".data, 1, 0⟩] [] :=
  ⟨⟨by decide, by decide⟩,
    listing_ordered_and_deterministic.2 [⟨"b".data, 1, 0⟩, ⟨"a".data, 2, 0⟩]
      [⟨"a".data, 2, 0⟩, ⟨"b".data, 1, 0⟩] [] (by decide) (by decide)⟩

/-! ### C8: the Back-button computation terminates at the root -/

lemma modifyHead_append_of_ne_nil {f : List Char → List Char}
    {l : List (List Char)} (l₂ : List (List Char)) (h : l ≠ []) :
    (l ++ l₂).modifyHead f = l.modifyHead f ++ l₂ := by
  cases l with
  | nil => exact absurd rfl h
  | cons a t => simp [List.modifyHead_cons]

lemma pySplitSlash_append_slash (s : List Char) :
    pySplitSlash (s ++ ['/']) = pySplitSlash s ++ [[]] := by
  induction s with
  | nil => simp [pySplitSlash]
  | cons c rest ih =>
    by_cases h : c = '/'
    · simp [pySplitSlash, h, ih]
    · simp only [List.cons_append, pySplitSlash, h, if_false, List.append_eq]
      rw [ih, modifyHead_append_of_ne_nil _ (pySplitSlash_ne_nil rest)]

lemma pyRstripSlash_append_slash (s : List Char) :
    pyRstripSlash (s ++ ['/']) = pyRstripSlash s := by
  unfold pyRstripSlash
  rw [List.reverse_append]
  simp [List.dropWhile_cons]

lemma segments_normalizePfx (x : List Char) :
    segments (normalizePfx x) = segments x := by
  unfold normalizePfx
  by_cases h : (endsWithSlash x || x == []) = true
  · rw [if_pos h]
  · rw [if_neg h]
    simp [segments, pyRstripSlash_append_slash]

lemma segments_pos (s : List Char) : 0 < segments s :=
  List.length_pos.mpr (pySplitSlash_ne_nil _)

lemma pySplitSlash_no_slash :
    ∀ (s : List Char), ∀ piece ∈ pySplitSlash s, '/' ∉ piece := by
  intro s
  induction s with
  | nil =>
    intro piece hmem
    simp [pySplitSlash] at hmem
    simp [hmem]
  | cons c rest ih =>
    intro piece hmem
    by_cases h : c = '/'
    · rw [pySplitSlash, if_pos h] at hmem
      rcases List.mem_cons.mp hmem with rfl | hmem
      · simp
      · exact ih piece hmem
    · rw [pySplitSlash, if_neg h] at hmem
      cases hsp : pySplitSlash rest with
      | nil => exact absurd hsp (pySplitSlash_ne_nil rest)
      | cons a t =>
        rw [hsp, List.modifyHead_cons] at hmem
        rcases List.mem_cons.mp hmem with rfl | hmem
        · intro hcontra
          rcases List.mem_cons.mp hcontra with hc | hc
          · exact h hc.symm
          · exact ih a (by rw [hsp]; exact List.mem_cons_self a t) hc
        · exact ih piece (by rw [hsp]; exact List.mem_cons_of_mem a hmem)

lemma split_of_no_slash {s : List Char} (h : '/' ∉ s) : pySplitSlash s = [s] := by
  induction s with
  | nil => rfl
  | cons c rest ih =>
    have hc : ¬ (c = '/') := by
      intro hc
      exact h (by simp [hc])
    have hrest : '/' ∉ rest := fun hr => h (List.mem_cons_of_mem c hr)
    rw [pySplitSlash, if_neg hc, ih hrest, List.modifyHead_cons]

lemma split_append_cons (u : List Char) :
    ∀ (p : List Char), '/' ∉ p → pySplitSlash (p ++ '/' :: u) = p :: pySplitSlash u := by
  intro p
  induction p with
  | nil =>
    intro _
    simp [pySplitSlash]
  | cons c p' ih =>
    intro hp
    have hc : ¬ (c = '/') := by
      intro hc
      exact hp (by simp [hc])
    have hp' : '/' ∉ p' := fun hr => hp (List.mem_cons_of_mem c hr)
    rw [List.cons_append, pySplitSlash, if_neg hc, ih hp', List.modifyHead_cons]

lemma split_join : ∀ (q : List (List Char)), q ≠ [] → (∀ piece ∈ q, '/' ∉ piece) →
    pySplitSlash (pyJoinSlash q) = q
  | [], h, _ => absurd rfl h
  | [p], _, hp => by
    rw [pyJoinSlash]
    exact split_of_no_slash (hp p (by simp))
  | p :: q' :: ps, _, hp => by
    rw [pyJoinSlash, split_append_cons _ p (hp p (by simp))]
    rw [split_join (q' :: ps) (by simp) (fun piece hmem => hp piece (by simp [hmem]))]

lemma exists_rstrip_decomp (s : List Char) :
    ∃ k, s = pyRstripSlash s ++ List.replicate k '/' := by
  obtain ⟨k, hk⟩ : ∃ k, s.reverse.takeWhile (fun c => c = '/') = List.replicate k '/' :=
    ⟨_, List.eq_replicate_of_mem (fun b hb => by
      have := List.mem_takeWhile_imp hb
      simpa using this)⟩
  refine ⟨k, ?_⟩
  conv_lhs => rw [← s.reverse_reverse,
    ← List.takeWhile_append_dropWhile (fun c => c = '/') s.reverse]
  rw [List.reverse_append, hk, List.reverse_replicate]
  rfl

lemma split_append_replicate (s : List Char) :
    ∀ k : Nat, pySplitSlash (s ++ List.replicate k '/') =
      pySplitSlash s ++ List.replicate k ([] : List Char) := by
  intro k
  induction k with
  | zero => simp
  | succ k ih =>
    rw [List.replicate_succ' k '/', ← List.append_assoc, pySplitSlash_append_slash, ih,
      List.replicate_succ' k ([] : List Char), ← List.append_assoc]

lemma split_rstrip_le (s : List Char) :
    (pySplitSlash (pyRstripSlash s)).length ≤ (pySplitSlash s).length := by
  obtain ⟨k, hk⟩ := exists_rstrip_decomp s
  conv_rhs => rw [hk]
  rw [split_append_replicate]
  simp

lemma parentOf_nil : parentOf [] = [] := rfl

lemma parentOf_decrease (p : List Char) :
    parentOf p = [] ∨ segments (parentOf p) < segments p := by
  rw [parentOf]
  by_cases hj : pyJoinSlash (pySplitSlash (pyRstripSlash p)).dropLast = []
  · left
    simp [hj]
  · right
    rw [if_neg hj]
    have h1 : segments (pyJoinSlash (pySplitSlash (pyRstripSlash p)).dropLast ++ ['/']) =
        segments (pyJoinSlash (pySplitSlash (pyRstripSlash p)).dropLast) := by
      simp [segments, pyRstripSlash_append_slash]
    rw [h1]
    have hq_ne : (pySplitSlash (pyRstripSlash p)).dropLast ≠ [] := by
      intro h0
      rw [h0] at hj
      exact hj rfl
    have h3 : pySplitSlash (pyJoinSlash (pySplitSlash (pyRstripSlash p)).dropLast) =
        (pySplitSlash (pyRstripSlash p)).dropLast :=
      split_join _ hq_ne (fun piece hmem =>
        pySplitSlash_no_slash (pyRstripSlash p) piece
          ((List.dropLast_sublist _).subset hmem))
    have h2 := split_rstrip_le (pyJoinSlash (pySplitSlash (pyRstripSlash p)).dropLast)
    rw [h3] at h2
    have h4 : ((pySplitSlash (pyRstripSlash p)).dropLast).length <
        (pySplitSlash (pyRstripSlash p)).length := by
      rw [List.length_dropLast]
      have := List.length_pos.mpr (pySplitSlash_ne_nil (pyRstripSlash p))
      omega
    exact lt_of_le_of_lt h2 h4

lemma parentOf_iterate_eq_nil : ∀ (n : Nat) (p : List Char), segments p ≤ n →
    parentOf^[n] p = [] := by
  intro n
  induction n with
  | zero =>
    intro p hp
    have := segments_pos p
    omega
  | succ n ih =>
    intro p hp
    rw [Function.iterate_succ_apply]
    rcases parentOf_decrease p with h | h
    · rw [h]
      exact Function.iterate_fixed parentOf_nil n
    · exact ih (parentOf p) (by omega)

lemma parentOf_eq_nil_of_no_slash {x : List Char} (h : '/' ∉ pyRstripSlash x) :
    parentOf x = [] := by
  rw [parentOf, split_of_no_slash h, List.dropLast_single]
  rfl

/-- C8 (confirmed): the Back-button computation is total (it is a plain
function of the path), sends any top-level prefix — one whose
slash-trimmed form contains no slash — to the empty string, fixes the
empty string, and starting from any normalized prefix reaches the empty
string in at most `segments x` iterations. -/
theorem parentOf_reaches_root (x : List Char) :
    ('/' ∉ pyRstripSlash x → parentOf x = [])
    ∧ parentOf^[segments x] (normalizePfx x) = []
    ∧ parentOf [] = [] := by
  refine ⟨fun h => parentOf_eq_nil_of_no_slash h, ?_, parentOf_nil⟩
  apply parentOf_iterate_eq_nil
  rw [segments_normalizePfx]

/-- Witness for C8: the top-level prefix `"dir/"` goes straight to the
root, and `"a/b/c"` reaches the root within its three segments. -/
theorem parentOf_reaches_root_witness :
    (('/' ∉ pyRstripSlash "dir/".data) ∧ parentOf "dir/".data = [])
    ∧ parentOf^[segments "a/b/c".data] (normalizePfx "a/b/c".data) = [] :=
  ⟨⟨by decide, (parentOf_reaches_root "dir/".data).1 (by decide)⟩,
    (parentOf_reaches_root "a/b/c".data).2.1⟩
